import Mathlib

/-!
# Verification of `runConcurrent` (matheusbozetti/run-concurrent)

Shallow embedding of `src/runConcurrent.ts` and `src/errors/ConcurrencyError.ts`.

The program runs a list of nullary asynchronous tasks with a bounded worker
pool.  Source shape (src/runConcurrent.ts):

* `const { concurrency = 5, stopOnError = true } = options;`
* `const results: any[] = new Array(tasks.length);`
* `const errorIndexes: number[] = [];`
* `let errorOccurred = false;`
* `const queue = tasks.map((task, index) => ({ task, index }));`
* each worker loops: `while (queue.length > 0 && (!stopOnError || !errorOccurred))`,
  pops `queue.shift()`, runs `results[index] = await task()`; a caught error is
  normalized (`error instanceof Error ? error : new Error(String(error ?? "Unknown error"))`)
  and either thrown as a `ConcurrencyError` (fail-fast, after setting
  `errorOccurred = true`) or stored in the slot with its index pushed onto
  `errorIndexes`;
* `await Promise.all(Array.from({ length: concurrency }, () => worker()))`;
* fail-fast returns `results`, collect-all returns
  `{ data: results, errorIndexes: errorIndexes.sort() }`.

Concurrency model: workers are cooperative async functions on a single event
loop.  The only suspension point inside the loop body is `await task()`;
testing the loop condition together with `queue.shift()` is one synchronous
(hence indivisible) block, and resuming from the `await` together with the
slot write (or the catch block) is another.  We model a run as a
nondeterministic transition system whose atomic steps are exactly those
synchronous blocks; the scheduler freely interleaves workers at the
suspension points.  This is a superset of the behaviours the JS event loop
allows, so universally quantified theorems over reachable states cover every
real schedule.
-/

/-- A JavaScript value thrown by a task, as far as the claims need it:
`null`, `undefined`, a plain string, or an `Error` instance with its
`message`. -/
inductive JsVal where
  | jsNull
  | jsUndefined
  | str (s : String)
  | errObj (msg : String)
deriving DecidableEq, Repr

/-- A JavaScript `Error` object, reduced to its `message` field. -/
structure JsError where
  message : String
deriving DecidableEq, Repr

/-- `String(e)` for a plain `Error` object `e`: `Error.prototype.toString`
yields the name `"Error"` when the message is empty and
`"Error: " ++ message` otherwise. -/
def jsErrorToString (e : JsError) : String :=
  if e.message = "" then "Error" else "Error: " ++ e.message

/-- The normalization in the worker's catch block
(src/runConcurrent.ts, lines 83-87):
`error instanceof Error ? error : new Error(String(error ?? "Unknown error"))`.
An `Error` instance passes through; `null`/`undefined` fall to the
`?? "Unknown error"` default; any other value is `String`-converted.
We return the `message` of the resulting normalized `Error` object. -/
def normalizeError : JsVal → String
  | JsVal.errObj m => m
  | JsVal.jsNull => "Unknown error"
  | JsVal.jsUndefined => "Unknown error"
  | JsVal.str s => s

/-- Model of `ConcurrencyError` (src/errors/ConcurrencyError.ts): it extends
`Error`, stores the 0-based task `index`, and passes its first constructor
argument to `super`.  At both call sites in `runConcurrent` that argument is
the normalized `Error` object, kept here as `cause`. -/
structure ConcurrencyError where
  cause : JsError
  index : Nat
deriving DecidableEq, Repr

/-- The inherited `message` field of a `ConcurrencyError`: `super(message)`
stores `String(message)`, and the value passed is the normalized `Error`
object, so the stored string is `Error.prototype.toString` of the cause. -/
def ConcurrencyError.message (ce : ConcurrencyError) : String :=
  jsErrorToString ce.cause

/-- The `ConcurrencyError` built by the worker for a task at `index` whose
thrown value was `e`: `new ConcurrencyError(normalizedError, index)`. -/
def mkCE (e : JsVal) (i : Nat) : ConcurrencyError :=
  { cause := { message := normalizeError e }, index := i }

/-- A task, as the scheduler observes it: invoking it either resolves with a
value or rejects with a thrown JavaScript value. -/
inductive TaskSpec (α : Type) where
  | ok (v : α)
  | err (e : JsVal)
deriving DecidableEq, Repr

/-- What a slot of the `results` array holds once written: the task's value,
or (collect-all mode) the `ConcurrencyError` stored in place. -/
inductive Slot (α : Type) where
  | val (v : α)
  | err (ce : ConcurrencyError)
deriving DecidableEq, Repr

/-- An element of the work queue: `{ task, index }`. -/
structure WorkItem (α : Type) where
  task : TaskSpec α
  index : Nat
deriving DecidableEq, Repr

/-- Control state of one worker async function.
`atLoop`: about to test the `while` condition (and, if it holds, claim the
next item — one synchronous block).  `running it`: suspended at
`await task()` for the claimed item `it`.  `done`: returned normally.
`threw ce`: rejected with `ce` (fail-fast throw). -/
inductive WorkerState (α : Type) where
  | atLoop
  | running (it : WorkItem α)
  | done
  | threw (ce : ConcurrencyError)
deriving DecidableEq, Repr

/-- `true` for a worker whose async function has settled. -/
def WorkerState.isFinished : WorkerState α → Bool
  | WorkerState.done => true
  | WorkerState.threw _ => true
  | _ => false

/-- The work item a worker currently holds, if it is mid-task. -/
def WorkerState.runningItem : WorkerState α → Option (WorkItem α)
  | WorkerState.running it => some it
  | _ => none

/-- The `ConcurrencyError` a worker rejected with, if any. -/
def WorkerState.thrownCE : WorkerState α → Option ConcurrencyError
  | WorkerState.threw ce => some ce
  | _ => none

/-- The mutable state of one `runConcurrent` call: the caller's `tasks`
array (never written after the initial `map`), the work `queue`, the
pre-sized `results` array (`none` models an uninitialized hole), the
`errorIndexes` accumulator, the `errorOccurred` flag, the first worker
rejection (the value `Promise.all` rejects with), and the worker pool. -/
structure RunState (α : Type) where
  tasksArr : List (TaskSpec α)
  queue : List (WorkItem α)
  results : List (Option (Slot α))
  errorIndexes : List Nat
  errorOccurred : Bool
  firstError : Option ConcurrencyError
  workers : List (WorkerState α)
deriving DecidableEq, Repr

/-- `tasks.map((task, index) => ({ task, index }))`, indices counted from
`k`. -/
def mkQueueFrom (k : Nat) : List (TaskSpec α) → List (WorkItem α)
  | [] => []
  | t :: ts => { task := t, index := k } :: mkQueueFrom (k + 1) ts

/-- The fresh work queue built at run start. -/
def mkQueue (tasks : List (TaskSpec α)) : List (WorkItem α) :=
  mkQueueFrom 0 tasks

/-- State at the start of a run.  `Array.from({ length: concurrency })`
applies `ToLength`, which clamps a negative count to `0`, hence
`Int.toNat`. -/
def init (tasks : List (TaskSpec α)) (concurrency : Int) : RunState α :=
  { tasksArr := tasks
    queue := mkQueue tasks
    results := List.replicate tasks.length none
    errorIndexes := []
    errorOccurred := false
    firstError := none
    workers := List.replicate concurrency.toNat WorkerState.atLoop }

/-- One atomic step of one worker, chosen nondeterministically as
`workers = pre ++ w :: post`.  `so` is the effective `stopOnError`. -/
inductive Step (so : Bool) : RunState α → RunState α → Prop
  /-- The loop condition `queue.length > 0 && (!stopOnError || !errorOccurred)`
  holds: `queue.shift()` claims the head item and the worker calls its task,
  suspending at the `await`.  Condition test, shift and call are one
  synchronous block. -/
  | claim (s : RunState α) (pre post : List (WorkerState α))
      (it : WorkItem α) (rest : List (WorkItem α)) :
      s.workers = pre ++ WorkerState.atLoop :: post →
      s.queue = it :: rest →
      (so = false ∨ s.errorOccurred = false) →
      Step so s { s with queue := rest,
                         workers := pre ++ WorkerState.running it :: post }
  /-- The loop condition fails: the worker returns. -/
  | exitLoop (s : RunState α) (pre post : List (WorkerState α)) :
      s.workers = pre ++ WorkerState.atLoop :: post →
      (s.queue = [] ∨ (so = true ∧ s.errorOccurred = true)) →
      Step so s { s with workers := pre ++ WorkerState.done :: post }
  /-- The awaited task resolved: `results[index] = ...` and back to the loop
  head, one synchronous block. -/
  | finishOk (s : RunState α) (pre post : List (WorkerState α))
      (v : α) (i : Nat) :
      s.workers = pre ++ WorkerState.running { task := TaskSpec.ok v, index := i } :: post →
      Step so s { s with results := s.results.set i (some (Slot.val v)),
                         workers := pre ++ WorkerState.atLoop :: post }
  /-- The awaited task rejected, fail-fast mode: set `errorOccurred` and
  throw a `ConcurrencyError` out of the worker.  `Promise.all` rejects with
  the first worker rejection, recorded in `firstError`. -/
  | finishErrStop (s : RunState α) (pre post : List (WorkerState α))
      (e : JsVal) (i : Nat) :
      so = true →
      s.workers = pre ++ WorkerState.running { task := TaskSpec.err e, index := i } :: post →
      Step so s { s with errorOccurred := true,
                         firstError := s.firstError.or (some (mkCE e i)),
                         workers := pre ++ WorkerState.threw (mkCE e i) :: post }
  /-- The awaited task rejected, collect-all mode: store the
  `ConcurrencyError` in the slot, push the index, back to the loop head. -/
  | finishErrGo (s : RunState α) (pre post : List (WorkerState α))
      (e : JsVal) (i : Nat) :
      so = false →
      s.workers = pre ++ WorkerState.running { task := TaskSpec.err e, index := i } :: post →
      Step so s { s with results := s.results.set i (some (Slot.err (mkCE e i))),
                         errorIndexes := s.errorIndexes ++ [i],
                         workers := pre ++ WorkerState.atLoop :: post }

/-- States a run with the given tasks and options can be in. -/
def Reachable (so : Bool) (tasks : List (TaskSpec α)) (c : Int) (s : RunState α) : Prop :=
  Relation.ReflTransGen (Step so) (init tasks c) s

/-- All workers have settled: `Promise.all` has settled. -/
def Terminal (s : RunState α) : Prop :=
  ∀ w ∈ s.workers, w.isFinished = true

instance (s : RunState α) : Decidable (Terminal s) :=
  List.decidableBAll _ s.workers

/-- Decimal digits of `n`, most significant first, with explicit fuel
(`fuel > n` suffices). -/
def decDigitsAux : Nat → Nat → List Nat
  | 0, _ => []
  | fuel + 1, n => if n < 10 then [n] else decDigitsAux fuel (n / 10) ++ [n % 10]

/-- Decimal digits of `n`, most significant first: the character content of
JavaScript's `String(n)` for a nonnegative integer. -/
def decDigits (n : Nat) : List Nat :=
  decDigitsAux (n + 1) n

/-- Lexicographic `≤` on digit lists.  The code points of `'0'..'9'` are in
numeric order, so comparing decimal strings code unit by code unit (as the
JS default sort comparator does) is exactly lexicographic comparison of the
digit lists, with a proper leading segment comparing smaller. -/
def digitsLe : List Nat → List Nat → Bool
  | [], _ => true
  | _ :: _, [] => false
  | a :: as, b :: bs =>
      if a < b then true else if b < a then false else digitsLe as bs

/-- JS `Array.prototype.sort` default comparator on numbers: compare
`String(a)` with `String(b)` as strings.  Insertion used by the sort model,
elementwise: keep walking past `b` while `String(b) ≤ String(a)`. -/
def jsInsert (a : Nat) : List Nat → List Nat
  | [] => [a]
  | b :: bs =>
      if digitsLe (decDigits b) (decDigits a) then b :: jsInsert a bs
      else a :: b :: bs

/-- `errorIndexes.sort()` with the default (string) comparator: a sort of
the list under `digitsLe ∘ decDigits`.  Distinct numbers have distinct
decimal strings, so every sorting algorithm using this comparator produces
this same list; insertion sort is used as the model. -/
def jsSortNums : List Nat → List Nat
  | [] => []
  | a :: as => jsInsert a (jsSortNums as)

/-- What the returned promise settles to. -/
inductive RunOutcome (α : Type) where
  | resolvedArr (results : List (Option (Slot α)))
  | rejected (ce : ConcurrencyError)
  | resolvedRec (data : List (Option (Slot α))) (errorIndexes : List Nat)
deriving DecidableEq, Repr

/-- The settled value of the call, read off a state where `Promise.all` has
settled.  Fail-fast: the first worker rejection propagates, otherwise
`return results`.  Collect-all: `return { data: results, errorIndexes:
errorIndexes.sort() }`. -/
def outcome (so : Bool) (s : RunState α) : RunOutcome α :=
  if so then
    match s.firstError with
    | some ce => RunOutcome.rejected ce
    | none => RunOutcome.resolvedArr s.results
  else
    RunOutcome.resolvedRec s.results (jsSortNums s.errorIndexes)

/-- The `errorIndexes` component of a collect-all outcome. -/
def RunOutcome.errIdxList : RunOutcome α → Option (List Nat)
  | RunOutcome.resolvedRec _ e => some e
  | _ => none

/-- The indices still sitting in the queue. -/
def qIdx (s : RunState α) : List Nat :=
  s.queue.map WorkItem.index

/-- The work items currently claimed by mid-task workers. -/
def runItems (ws : List (WorkerState α)) : List (WorkItem α) :=
  ws.filterMap WorkerState.runningItem

/-- The indices currently claimed by mid-task workers. -/
def rIdx (s : RunState α) : List Nat :=
  (runItems s.workers).map WorkItem.index

/-- Indices whose task has not yet completed: still queued or mid-task. -/
def pendingIdx (s : RunState α) : List Nat :=
  qIdx s ++ rIdx s

/-- The worker rejections in a worker pool. -/
def thrownCEs (ws : List (WorkerState α)) : List ConcurrencyError :=
  ws.filterMap WorkerState.thrownCE

/-- The errors a result slot holds, if any. -/
def slotCE : Option (Slot α) → Option ConcurrencyError
  | some (Slot.err ce) => some ce
  | _ => none

/-- The error markers stored in the result slots. -/
def slotCEs (rs : List (Option (Slot α))) : List ConcurrencyError :=
  rs.filterMap slotCE

/-- Every `ConcurrencyError` the run has produced so far: the recorded first
rejection, each worker rejection, and each error marker stored in a result
slot. -/
def producedCEs (s : RunState α) : List ConcurrencyError :=
  s.firstError.toList ++ thrownCEs s.workers ++ slotCEs s.results

/-- Deterministic execution of one atomic step of the worker at position
`j`, used to compute concrete runs.  It performs exactly the action the
`Step` relation allows that worker (and is the identity on settled or
out-of-range workers). -/
def stepWorkerAt (so : Bool) (s : RunState α) (j : Nat) : RunState α :=
  match s.workers[j]? with
  | some WorkerState.atLoop =>
      match s.queue with
      | it :: rest =>
          if so = false ∨ s.errorOccurred = false then
            { s with queue := rest, workers := s.workers.set j (WorkerState.running it) }
          else
            { s with workers := s.workers.set j WorkerState.done }
      | [] => { s with workers := s.workers.set j WorkerState.done }
  | some (WorkerState.running it) =>
      match it.task with
      | TaskSpec.ok v =>
          { s with results := s.results.set it.index (some (Slot.val v)),
                   workers := s.workers.set j WorkerState.atLoop }
      | TaskSpec.err e =>
          if so then
            { s with errorOccurred := true,
                     firstError := s.firstError.or (some (mkCE e it.index)),
                     workers := s.workers.set j (WorkerState.threw (mkCE e it.index)) }
          else
            { s with results := s.results.set it.index (some (Slot.err (mkCE e it.index))),
                     errorIndexes := s.errorIndexes ++ [it.index],
                     workers := s.workers.set j WorkerState.atLoop }
  | _ => s

/-- One round-robin pass giving each worker one atomic step. -/
def sweep (so : Bool) (s : RunState α) : RunState α :=
  (List.range s.workers.length).foldl (stepWorkerAt so) s

/-- `fuel` round-robin passes: a particular schedule of the run. -/
def exec (so : Bool) (s : RunState α) : Nat → RunState α
  | 0 => s
  | fuel + 1 => exec so (sweep so s) fuel

theorem workers_decomp {l : List β} {j : Nat} {w : β} (h : l[j]? = some w) :
    l = l.take j ++ w :: l.drop (j + 1) ∧
      ∀ x, l.set j x = l.take j ++ x :: l.drop (j + 1) := by
  induction l generalizing j with
  | nil => simp at h
  | cons a t ih =>
      cases j with
      | zero => simp at h; simp [h]
      | succ j =>
          simp only [List.getElem?_cons_succ] at h
          obtain ⟨h1, h2⟩ := ih h
          refine ⟨?_, fun x => ?_⟩
          · simpa [List.take_succ_cons, List.drop_succ_cons] using congrArg (a :: ·) h1
          · simpa [List.take_succ_cons, List.drop_succ_cons] using congrArg (a :: ·) (h2 x)

theorem stepWorkerAt_sound (so : Bool) (s : RunState α) (j : Nat) :
    stepWorkerAt so s j = s ∨ Step so s (stepWorkerAt so s j) := by
  cases hw : s.workers[j]? with
  | none => left; simp [stepWorkerAt, hw]
  | some w =>
      obtain ⟨hdec, hset⟩ := workers_decomp hw
      cases w with
      | atLoop =>
          cases hq : s.queue with
          | nil =>
              right
              have hrw : stepWorkerAt so s j =
                  { s with workers := s.workers.set j WorkerState.done } := by
                simp [stepWorkerAt, hw, hq]
              rw [hrw, hset]
              exact Step.exitLoop s _ _ hdec (Or.inl hq)
          | cons it rest =>
              by_cases hgo : so = false ∨ s.errorOccurred = false
              · right
                have hrw : stepWorkerAt so s j =
                    { s with queue := rest,
                             workers := s.workers.set j (WorkerState.running it) } := by
                  simp [stepWorkerAt, hw, hq, hgo]
                rw [hrw, hset]
                exact Step.claim s _ _ it rest hdec hq hgo
              · right
                have hrw : stepWorkerAt so s j =
                    { s with workers := s.workers.set j WorkerState.done } := by
                  simp [stepWorkerAt, hw, hq, hgo]
                rw [hrw, hset]
                push_neg at hgo
                rcases hgo with ⟨h1, h2⟩
                exact Step.exitLoop s _ _ hdec
                  (Or.inr ⟨by simpa using h1, by simpa using h2⟩)
      | running it =>
          obtain ⟨t, i⟩ := it
          cases t with
          | ok v =>
              right
              have hrw : stepWorkerAt so s j =
                  { s with results := s.results.set i (some (Slot.val v)),
                           workers := s.workers.set j WorkerState.atLoop } := by
                simp [stepWorkerAt, hw]
              rw [hrw, hset]
              exact Step.finishOk s _ _ v i hdec
          | err e =>
              by_cases hso : so = true
              · right
                have hrw : stepWorkerAt so s j =
                    { s with errorOccurred := true,
                             firstError := s.firstError.or (some (mkCE e i)),
                             workers := s.workers.set j (WorkerState.threw (mkCE e i)) } := by
                  simp [stepWorkerAt, hw, hso]
                rw [hrw, hset]
                exact Step.finishErrStop s _ _ e i hso hdec
              · right
                have hrw : stepWorkerAt so s j =
                    { s with results := s.results.set i (some (Slot.err (mkCE e i))),
                             errorIndexes := s.errorIndexes ++ [i],
                             workers := s.workers.set j WorkerState.atLoop } := by
                  simp [stepWorkerAt, hw, hso]
                rw [hrw, hset]
                exact Step.finishErrGo s _ _ e i (by simpa using hso) hdec
      | done => left; simp [stepWorkerAt, hw]
      | threw ce => left; simp [stepWorkerAt, hw]

theorem foldl_stepWorkerAt_reach (so : Bool) (l : List Nat) (s : RunState α) :
    Relation.ReflTransGen (Step so) s (l.foldl (stepWorkerAt so) s) := by
  induction l generalizing s with
  | nil => exact Relation.ReflTransGen.refl
  | cons j t ih =>
      simp only [List.foldl_cons]
      refine Relation.ReflTransGen.trans ?_ (ih (stepWorkerAt so s j))
      rcases stepWorkerAt_sound so s j with h | h
      · rw [h]
      · exact Relation.ReflTransGen.single h

theorem sweep_reach (so : Bool) (s : RunState α) :
    Relation.ReflTransGen (Step so) s (sweep so s) :=
  foldl_stepWorkerAt_reach so _ s

theorem exec_reach (so : Bool) (s : RunState α) (fuel : Nat) :
    Relation.ReflTransGen (Step so) s (exec so s fuel) := by
  induction fuel generalizing s with
  | zero => exact Relation.ReflTransGen.refl
  | succ fuel ih =>
      exact Relation.ReflTransGen.trans (sweep_reach so s) (ih (sweep so s))

theorem reachable_exec (so : Bool) (tasks : List (TaskSpec α)) (c : Int) (fuel : Nat) :
    Reachable so tasks c (exec so (init tasks c) fuel) :=
  exec_reach so (init tasks c) fuel

theorem runItems_append (a b : List (WorkerState α)) :
    runItems (a ++ b) = runItems a ++ runItems b :=
  List.filterMap_append a b _

theorem runItems_cons (w : WorkerState α) (t : List (WorkerState α)) :
    runItems (w :: t) = w.runningItem.toList ++ runItems t := by
  cases w <;> simp [runItems, WorkerState.runningItem]

theorem thrownCEs_append (a b : List (WorkerState α)) :
    thrownCEs (a ++ b) = thrownCEs a ++ thrownCEs b :=
  List.filterMap_append a b _

theorem thrownCEs_cons (w : WorkerState α) (t : List (WorkerState α)) :
    thrownCEs (w :: t) = w.thrownCE.toList ++ thrownCEs t := by
  cases w <;> simp [thrownCEs, WorkerState.thrownCE]

theorem filterMap_cons_toList (f : β → Option γ) (a : β) (l : List β) :
    List.filterMap f (a :: l) = (f a).toList ++ List.filterMap f l := by
  cases h : f a <;> simp [List.filterMap_cons, h]

theorem mem_filterMap_set {l : List β} {i : Nat} {x : β} {f : β → Option γ} {c : γ}
    (hi : i < l.length)
    (h : c ∈ (l.set i x).filterMap f) :
    c ∈ l.filterMap f ∨ f x = some c := by
  obtain ⟨hdec, hset⟩ := workers_decomp (List.getElem?_eq_getElem hi)
  rw [hset, List.filterMap_append, filterMap_cons_toList] at h
  simp only [List.mem_append] at h
  rcases h with h | h | h
  · left
    nth_rewrite 1 [hdec]
    rw [List.filterMap_append, filterMap_cons_toList]
    simp only [List.mem_append]
    exact Or.inl h
  · right
    cases hfx : f x with
    | none => rw [hfx] at h; simp at h
    | some cc => simp at h; exact hfx.symm.trans h
  · left
    nth_rewrite 1 [hdec]
    rw [List.filterMap_append, filterMap_cons_toList]
    simp only [List.mem_append]
    right; right; exact h

theorem mem_mkQueueFrom {k : Nat} {ts : List (TaskSpec α)} {it : WorkItem α}
    (h : it ∈ mkQueueFrom k ts) :
    k ≤ it.index ∧ ts[it.index - k]? = some it.task := by
  induction ts generalizing k with
  | nil => simp [mkQueueFrom] at h
  | cons t ts ih =>
      simp only [mkQueueFrom, List.mem_cons] at h
      rcases h with h | h
      · subst h; simp
      · obtain ⟨h1, h2⟩ := ih h
        refine ⟨by omega, ?_⟩
        have : it.index - k = (it.index - (k + 1)) + 1 := by omega
        rw [this, List.getElem?_cons_succ]
        exact h2

theorem map_index_mkQueueFrom (k : Nat) (ts : List (TaskSpec α)) :
    (mkQueueFrom k ts).map WorkItem.index = List.range' k ts.length := by
  induction ts generalizing k with
  | nil => simp [mkQueueFrom]
  | cons t ts ih => simp [mkQueueFrom, List.range'_succ, ih]

/-- The inductive invariant of a run with the given tasks and options:
the tasks array is never written; the worker pool keeps its size; the
results array keeps its size; queued and claimed items carry their own task
at their own index; no index is queued or claimed twice (the claim
discipline); pending slots are unwritten; completed slots hold exactly
their task's value or error marker; `errorIndexes` records exactly the
completed failing indices, without duplicates; `firstError` is recorded
exactly when `errorOccurred` is set; every produced `ConcurrencyError` is
the normalization of its own task's thrown value; a worker only returns
once the queue is empty or fail-fast has tripped; a worker only throws in
fail-fast mode with the flag set. -/
structure RunInv (tasks : List (TaskSpec α)) (so : Bool) (c : Int) (s : RunState α) : Prop where
  tasksFrozen : s.tasksArr = tasks
  wlen : s.workers.length = c.toNat
  len : s.results.length = tasks.length
  itemsOk : ∀ it ∈ s.queue ++ runItems s.workers, tasks[it.index]? = some it.task
  nodup : (pendingIdx s).Nodup
  pendingNone : ∀ i ∈ pendingIdx s, s.results[i]? = some none
  writtenOk : ∀ i v, tasks[i]? = some (TaskSpec.ok v) → i ∉ pendingIdx s →
      s.results[i]? = some (some (Slot.val v))
  writtenErr : ∀ i e, tasks[i]? = some (TaskSpec.err e) → i ∉ pendingIdx s →
      (so = true → s.errorOccurred = true) ∧
      (so = false → s.results[i]? = some (some (Slot.err (mkCE e i))))
  errNodup : s.errorIndexes.Nodup
  errSound : ∀ i ∈ s.errorIndexes, i ∉ pendingIdx s ∧ ∃ e, tasks[i]? = some (TaskSpec.err e)
  errComplete : so = false → ∀ i e, tasks[i]? = some (TaskSpec.err e) → i ∉ pendingIdx s →
      i ∈ s.errorIndexes
  flagEq : s.firstError.isSome = s.errorOccurred
  ceShape : ∀ ce ∈ producedCEs s, ∃ e, tasks[ce.index]? = some (TaskSpec.err e) ∧ ce = mkCE e ce.index
  doneQueue : WorkerState.done ∈ s.workers →
      s.queue = [] ∨ (so = true ∧ s.errorOccurred = true)
  threwFlag : ∀ ce : ConcurrencyError, WorkerState.threw ce ∈ s.workers →
      so = true ∧ s.errorOccurred = true
  soFlag : so = false → s.errorOccurred = false

theorem runInv_init (tasks : List (TaskSpec α)) (so : Bool) (c : Int) :
    RunInv tasks so c (init tasks c) := by
  have hq : qIdx (init tasks c) = List.range' 0 tasks.length := by
    simp [qIdx, init, mkQueue, map_index_mkQueueFrom]
  have hr : rIdx (init tasks c) = [] := by
    simp [rIdx, init, runItems, List.filterMap_replicate, WorkerState.runningItem]
  have hpend : pendingIdx (init tasks c) = List.range' 0 tasks.length := by
    simp [pendingIdx, hq, hr]
  have hmem : ∀ i : Nat, i < tasks.length → i ∈ pendingIdx (init tasks c) := by
    intro i hi
    rw [hpend, List.mem_range'_1]
    omega
  refine ⟨rfl, by simp [init], by simp [init], ?_, ?_, ?_, ?_, ?_, ?_, ?_, ?_, ?_, ?_, ?_, ?_, ?_⟩
  · intro it hit
    simp only [init, runItems, List.filterMap_replicate] at hit
    simp only [WorkerState.runningItem] at hit
    simp only [List.append_nil, mkQueue] at hit
    have := mem_mkQueueFrom hit
    simpa using this.2
  · rw [hpend]; exact List.nodup_range' 0 tasks.length
  · intro i hi
    rw [hpend, List.mem_range'_1] at hi
    simp [init, List.getElem?_replicate]
    omega
  · intro i v hv hnp
    exact absurd (hmem i (List.getElem?_eq_some.mp hv).1) hnp
  · intro i e he hnp
    exact absurd (hmem i (List.getElem?_eq_some.mp he).1) hnp
  · simp [init]
  · intro i hi; simp [init] at hi
  · intro _ i e he hnp
    exact absurd (hmem i (List.getElem?_eq_some.mp he).1) hnp
  · simp [init]
  · intro ce hce
    simp only [producedCEs, init, thrownCEs, slotCEs, List.filterMap_replicate] at hce
    simp only [WorkerState.thrownCE, slotCE] at hce
    simp at hce
  · intro hd
    have := List.eq_of_mem_replicate hd
    simp at this
  · intro ce hce
    have := List.eq_of_mem_replicate hce
    simp at this
  · intro _
    simp [init]

theorem perm_snoc_middle (a : γ) (l₁ l₂ l₃ : List γ) :
    List.Perm (l₁ ++ (l₂ ++ (a :: l₃))) (a :: (l₁ ++ (l₂ ++ l₃))) := by
  have h := @List.perm_middle γ a (l₁ ++ l₂) l₃
  simpa [List.append_assoc] using h

section Preservation

variable {tasks : List (TaskSpec α)} {so : Bool} {c : Int} {s : RunState α}
variable {pre post : List (WorkerState α)}

theorem runInv_claim {it : WorkItem α} {rest : List (WorkItem α)}
    (ih : RunInv tasks so c s)
    (hw : s.workers = pre ++ WorkerState.atLoop :: post)
    (hq : s.queue = it :: rest) :
    RunInv tasks so c
      { s with queue := rest, workers := pre ++ WorkerState.running it :: post } := by
  set s' : RunState α :=
    { s with queue := rest, workers := pre ++ WorkerState.running it :: post } with hs'
  have hps : pendingIdx s =
      it.index :: (rest.map WorkItem.index ++
        ((runItems pre).map WorkItem.index ++ (runItems post).map WorkItem.index)) := by
    simp [pendingIdx, qIdx, rIdx, hq, hw, runItems_append, runItems_cons,
      WorkerState.runningItem]
  have hps' : pendingIdx s' =
      rest.map WorkItem.index ++
        ((runItems pre).map WorkItem.index ++
          (it.index :: (runItems post).map WorkItem.index)) := by
    simp [hs', pendingIdx, qIdx, rIdx, runItems_append, runItems_cons,
      WorkerState.runningItem]
  have hperm : List.Perm (pendingIdx s') (pendingIdx s) := by
    rw [hps, hps']
    exact perm_snoc_middle it.index _ _ _
  have hmem : ∀ j, j ∈ pendingIdx s' ↔ j ∈ pendingIdx s := fun j => hperm.mem_iff
  refine ⟨ih.tasksFrozen, ?_, ih.len, ?_, hperm.symm.nodup ih.nodup, ?_, ?_, ?_,
    ih.errNodup, ?_, ?_, ih.flagEq, ?_, ?_, ?_, ih.soFlag⟩
  · have h := ih.wlen
    rw [hw] at h
    simpa using h
  · intro it' h
    apply ih.itemsOk
    revert h
    simp only [hs', hq, hw, runItems_append, runItems_cons, WorkerState.runningItem,
      List.mem_append, List.mem_cons, Option.toList]
    tauto
  · intro i hi
    exact ih.pendingNone i ((hmem i).mp hi)
  · intro i v hv hnp
    exact ih.writtenOk i v hv (fun h => hnp ((hmem i).mpr h))
  · intro i e he hnp
    exact ih.writtenErr i e he (fun h => hnp ((hmem i).mpr h))
  · intro i hi
    obtain ⟨h1, h2⟩ := ih.errSound i hi
    exact ⟨fun h => h1 ((hmem i).mp h), h2⟩
  · intro hso i e he hnp
    exact ih.errComplete hso i e he (fun h => hnp ((hmem i).mpr h))
  · intro ce hce
    apply ih.ceShape
    revert hce
    simp only [hs', producedCEs, hw, thrownCEs_append, thrownCEs_cons,
      WorkerState.thrownCE, List.mem_append, Option.toList]
    tauto
  · intro hd
    have hd2 : WorkerState.done ∈ s.workers := by
      rw [hw]
      revert hd
      simp only [hs', List.mem_append, List.mem_cons]
      rintro (h | h | h)
      · exact Or.inl h
      · exact absurd h (by simp)
      · exact Or.inr (Or.inr h)
    rcases ih.doneQueue hd2 with h | h
    · rw [hq] at h; simp at h
    · exact Or.inr h
  · intro ce hce
    apply ih.threwFlag ce
    rw [hw]
    revert hce
    simp only [hs', List.mem_append, List.mem_cons]
    rintro (h | h | h)
    · exact Or.inl h
    · exact absurd h (by simp)
    · exact Or.inr (Or.inr h)


theorem runInv_exitLoop
    (ih : RunInv tasks so c s)
    (hw : s.workers = pre ++ WorkerState.atLoop :: post)
    (hcond : s.queue = [] ∨ (so = true ∧ s.errorOccurred = true)) :
    RunInv tasks so c { s with workers := pre ++ WorkerState.done :: post } := by
  set s' : RunState α := { s with workers := pre ++ WorkerState.done :: post } with hs'
  have hpeq : pendingIdx s' = pendingIdx s := by
    simp [hs', pendingIdx, qIdx, rIdx, hw, runItems_append, runItems_cons,
      WorkerState.runningItem]
  have hceq : producedCEs s' = producedCEs s := by
    simp [hs', producedCEs, hw, thrownCEs_append, thrownCEs_cons, WorkerState.thrownCE]
  have hitems : s'.queue ++ runItems s'.workers = s.queue ++ runItems s.workers := by
    simp [hs', hw, runItems_append, runItems_cons, WorkerState.runningItem]
  refine ⟨ih.tasksFrozen, ?_, ih.len, ?_, ?_, ?_, ?_, ?_,
    ih.errNodup, ?_, ?_, ih.flagEq, ?_, ?_, ?_, ih.soFlag⟩
  · have h := ih.wlen
    rw [hw] at h
    simpa using h
  · rw [hitems]; exact ih.itemsOk
  · rw [hpeq]; exact ih.nodup
  · rw [hpeq]; exact ih.pendingNone
  · rw [hpeq]; exact ih.writtenOk
  · rw [hpeq]; exact ih.writtenErr
  · rw [hpeq]; exact ih.errSound
  · rw [hpeq]; exact ih.errComplete
  · rw [hceq]; exact ih.ceShape
  · intro _
    exact hcond
  · intro ce hce
    apply ih.threwFlag ce
    rw [hw]
    revert hce
    simp only [hs', List.mem_append, List.mem_cons]
    rintro (h | h | h)
    · exact Or.inl h
    · exact absurd h (by simp)
    · exact Or.inr (Or.inr h)

theorem runInv_finishOk {v : α} {i : Nat}
    (ih : RunInv tasks so c s)
    (hw : s.workers = pre ++ WorkerState.running { task := TaskSpec.ok v, index := i } :: post) :
    RunInv tasks so c
      { s with results := s.results.set i (some (Slot.val v)),
               workers := pre ++ WorkerState.atLoop :: post } := by
  set s' : RunState α :=
    { s with results := s.results.set i (some (Slot.val v)),
             workers := pre ++ WorkerState.atLoop :: post } with hs'
  have htask : tasks[i]? = some (TaskSpec.ok v) := by
    have := ih.itemsOk { task := TaskSpec.ok v, index := i }
    simp only [List.mem_append] at this
    exact this (Or.inr (by simp [hw, runItems_append, runItems_cons, WorkerState.runningItem]))
  have hilt : i < tasks.length := (List.getElem?_eq_some.mp htask).1
  have hilen : i < s.results.length := by rw [ih.len]; exact hilt
  have hps : pendingIdx s =
      s.queue.map WorkItem.index ++
        ((runItems pre).map WorkItem.index ++
          (i :: (runItems post).map WorkItem.index)) := by
    simp [pendingIdx, qIdx, rIdx, hw, runItems_append, runItems_cons,
      WorkerState.runningItem]
  have hps' : pendingIdx s' =
      s.queue.map WorkItem.index ++
        ((runItems pre).map WorkItem.index ++ (runItems post).map WorkItem.index) := by
    simp [hs', pendingIdx, qIdx, rIdx, runItems_append, runItems_cons,
      WorkerState.runningItem]
  have hperm : List.Perm (pendingIdx s) (i :: pendingIdx s') := by
    rw [hps, hps']
    exact perm_snoc_middle i _ _ _
  have hnodup' : (i :: pendingIdx s').Nodup := hperm.nodup ih.nodup
  have hinot : i ∉ pendingIdx s' := (List.nodup_cons.mp hnodup').1
  have hipend : i ∈ pendingIdx s := hperm.mem_iff.mpr (List.mem_cons_self i _)
  have hmem : ∀ j, j ∈ pendingIdx s ↔ (j = i ∨ j ∈ pendingIdx s') := by
    intro j
    rw [hperm.mem_iff, List.mem_cons]
  refine ⟨ih.tasksFrozen, ?_, ?_, ?_, hnodup'.of_cons, ?_, ?_, ?_,
    ih.errNodup, ?_, ?_, ih.flagEq, ?_, ?_, ?_, ih.soFlag⟩
  · have h := ih.wlen
    rw [hw] at h
    simpa using h
  · simpa [hs'] using ih.len
  · intro it' h
    apply ih.itemsOk
    revert h
    simp only [hs', hw, runItems_append, runItems_cons, WorkerState.runningItem,
      List.mem_append, List.mem_cons, Option.toList]
    tauto
  · intro j hj
    have hji : j ≠ i := fun h => hinot (h ▸ hj)
    have : s.results[j]? = some none := ih.pendingNone j ((hmem j).mpr (Or.inr hj))
    simpa [hs', List.getElem?_set_ne (Ne.symm hji)] using this
  · intro j v' hv' hnp
    by_cases hji : j = i
    · subst hji
      have hveq : v' = v := by
        rw [htask] at hv'
        cases hv'
        rfl
      subst hveq
      simp [hs', List.getElem?_set_self hilen]
    · have hnp2 : j ∉ pendingIdx s := fun h => by
        rcases (hmem j).mp h with h | h
        · exact hji h
        · exact hnp h
      have := ih.writtenOk j v' hv' hnp2
      simpa [hs', List.getElem?_set_ne (Ne.symm hji)] using this
  · intro j e he hnp
    have hji : j ≠ i := by
      intro h
      subst h
      rw [htask] at he
      cases he
    have hnp2 : j ∉ pendingIdx s := fun h => by
      rcases (hmem j).mp h with h | h
      · exact hji h
      · exact hnp h
    have := ih.writtenErr j e he hnp2
    refine ⟨this.1, fun hso => ?_⟩
    have h2 := this.2 hso
    simpa [hs', List.getElem?_set_ne (Ne.symm hji)] using h2
  · intro j hj
    obtain ⟨h1, h2⟩ := ih.errSound j hj
    refine ⟨fun h => h1 ((hmem j).mpr (Or.inr h)), h2⟩
  · intro hso j e he hnp
    have hji : j ≠ i := by
      intro h
      subst h
      rw [htask] at he
      cases he
    refine ih.errComplete hso j e he (fun h => ?_)
    rcases (hmem j).mp h with h | h
    · exact hji h
    · exact hnp h
  · intro ce hce
    have hthr : thrownCEs (pre ++ (WorkerState.atLoop : WorkerState α) :: post) =
        thrownCEs (pre ++ WorkerState.running { task := TaskSpec.ok v, index := i } :: post) := by
      simp [thrownCEs_append, thrownCEs_cons, WorkerState.thrownCE]
    simp only [hs', producedCEs, List.mem_append] at hce
    rcases hce with ((h | h) | h)
    · exact ih.ceShape ce (by
        simp only [producedCEs, List.mem_append]
        exact Or.inl (Or.inl h))
    · rw [hthr] at h
      exact ih.ceShape ce (by
        simp only [producedCEs, List.mem_append, hw]
        exact Or.inl (Or.inr h))
    · simp only [slotCEs] at h
      rcases mem_filterMap_set hilen h with h2 | h2
      · exact ih.ceShape ce (by
          simp only [producedCEs, List.mem_append, slotCEs]
          exact Or.inr h2)
      · simp [slotCE] at h2
  · intro hd
    have hd2 : WorkerState.done ∈ s.workers := by
      rw [hw]
      revert hd
      simp only [hs', List.mem_append, List.mem_cons]
      rintro (h | h | h)
      · exact Or.inl h
      · exact absurd h (by simp)
      · exact Or.inr (Or.inr h)
    exact ih.doneQueue hd2
  · intro ce hce
    apply ih.threwFlag ce
    rw [hw]
    revert hce
    simp only [hs', List.mem_append, List.mem_cons]
    rintro (h | h | h)
    · exact Or.inl h
    · exact absurd h (by simp)
    · exact Or.inr (Or.inr h)


theorem runInv_finishErrStop {e : JsVal} {i : Nat}
    (ih : RunInv tasks so c s)
    (hso : so = true)
    (hw : s.workers = pre ++ WorkerState.running { task := TaskSpec.err e, index := i } :: post) :
    RunInv tasks so c
      { s with errorOccurred := true,
               firstError := s.firstError.or (some (mkCE e i)),
               workers := pre ++ WorkerState.threw (mkCE e i) :: post } := by
  set s' : RunState α :=
    { s with errorOccurred := true,
             firstError := s.firstError.or (some (mkCE e i)),
             workers := pre ++ WorkerState.threw (mkCE e i) :: post } with hs'
  have htask : tasks[i]? = some (TaskSpec.err e) := by
    have := ih.itemsOk { task := TaskSpec.err e, index := i }
    simp only [List.mem_append] at this
    exact this (Or.inr (by simp [hw, runItems_append, runItems_cons, WorkerState.runningItem]))
  have hps : pendingIdx s =
      s.queue.map WorkItem.index ++
        ((runItems pre).map WorkItem.index ++
          (i :: (runItems post).map WorkItem.index)) := by
    simp [pendingIdx, qIdx, rIdx, hw, runItems_append, runItems_cons,
      WorkerState.runningItem]
  have hps' : pendingIdx s' =
      s.queue.map WorkItem.index ++
        ((runItems pre).map WorkItem.index ++ (runItems post).map WorkItem.index) := by
    simp [hs', pendingIdx, qIdx, rIdx, runItems_append, runItems_cons,
      WorkerState.runningItem]
  have hperm : List.Perm (pendingIdx s) (i :: pendingIdx s') := by
    rw [hps, hps']
    exact perm_snoc_middle i _ _ _
  have hnodup' : (i :: pendingIdx s').Nodup := hperm.nodup ih.nodup
  have hmem : ∀ j, j ∈ pendingIdx s ↔ (j = i ∨ j ∈ pendingIdx s') := by
    intro j
    rw [hperm.mem_iff, List.mem_cons]
  refine ⟨ih.tasksFrozen, ?_, ih.len, ?_, hnodup'.of_cons, ?_, ?_, ?_,
    ih.errNodup, ?_, ?_, ?_, ?_, ?_, ?_, fun h => absurd h (by simp [hso])⟩
  · have h := ih.wlen
    rw [hw] at h
    simpa using h
  · intro it' h
    apply ih.itemsOk
    revert h
    simp only [hs', hw, runItems_append, runItems_cons, WorkerState.runningItem,
      List.mem_append, List.mem_cons, Option.toList]
    tauto
  · intro j hj
    exact ih.pendingNone j ((hmem j).mpr (Or.inr hj))
  · intro j v' hv' hnp
    have hji : j ≠ i := by
      intro h
      subst h
      rw [htask] at hv'
      cases hv'
    have hnp2 : j ∉ pendingIdx s := fun h => by
      rcases (hmem j).mp h with h | h
      · exact hji h
      · exact hnp h
    exact ih.writtenOk j v' hv' hnp2
  · intro j e' he' hnp
    exact ⟨fun _ => rfl, fun h2 => absurd h2 (by simp [hso])⟩
  · intro j hj
    obtain ⟨h1, h2⟩ := ih.errSound j hj
    exact ⟨fun h => h1 ((hmem j).mpr (Or.inr h)), h2⟩
  · intro h2
    rw [hso] at h2
    cases h2
  · show (s.firstError.or (some (mkCE e i))).isSome = true
    cases s.firstError <;> simp [Option.or]
  · intro ce hce
    simp only [hs', producedCEs, List.mem_append] at hce
    rcases hce with ((h | h) | h)
    · rcases hfe : s.firstError with _ | a
      · rw [hfe] at h
        have h2 : ce ∈ (some (mkCE e i) : Option ConcurrencyError).toList := h
        have h3 : ce = mkCE e i := by simpa using h2
        subst h3
        exact ⟨e, htask, rfl⟩
      · rw [hfe] at h
        have h2 : ce ∈ (some a : Option ConcurrencyError).toList := h
        have h3 : ce = a := by simpa using h2
        subst h3
        exact ih.ceShape ce (by simp [producedCEs, hfe])
    · rw [thrownCEs_append, thrownCEs_cons] at h
      simp only [WorkerState.thrownCE, Option.toList, List.mem_append, List.mem_cons] at h
      rcases h with h | (h | h) | h
      · exact ih.ceShape ce (by
          simp only [producedCEs, List.mem_append, hw, thrownCEs_append, thrownCEs_cons]
          exact Or.inl (Or.inr (by simp [List.mem_append]; tauto)))
      · subst h
        exact ⟨e, htask, rfl⟩
      · simp at h
      · exact ih.ceShape ce (by
          simp only [producedCEs, List.mem_append, hw, thrownCEs_append, thrownCEs_cons]
          exact Or.inl (Or.inr (by simp [WorkerState.thrownCE, List.mem_append]; tauto)))
    · exact ih.ceShape ce (by
        simp only [producedCEs, List.mem_append]
        exact Or.inr h)
  · intro _
    exact Or.inr ⟨hso, rfl⟩
  · intro ce hce
    exact ⟨hso, rfl⟩

theorem runInv_finishErrGo {e : JsVal} {i : Nat}
    (ih : RunInv tasks so c s)
    (hso : so = false)
    (hw : s.workers = pre ++ WorkerState.running { task := TaskSpec.err e, index := i } :: post) :
    RunInv tasks so c
      { s with results := s.results.set i (some (Slot.err (mkCE e i))),
               errorIndexes := s.errorIndexes ++ [i],
               workers := pre ++ WorkerState.atLoop :: post } := by
  set s' : RunState α :=
    { s with results := s.results.set i (some (Slot.err (mkCE e i))),
             errorIndexes := s.errorIndexes ++ [i],
             workers := pre ++ WorkerState.atLoop :: post } with hs'
  have htask : tasks[i]? = some (TaskSpec.err e) := by
    have := ih.itemsOk { task := TaskSpec.err e, index := i }
    simp only [List.mem_append] at this
    exact this (Or.inr (by simp [hw, runItems_append, runItems_cons, WorkerState.runningItem]))
  have hilt : i < tasks.length := (List.getElem?_eq_some.mp htask).1
  have hilen : i < s.results.length := by rw [ih.len]; exact hilt
  have hps : pendingIdx s =
      s.queue.map WorkItem.index ++
        ((runItems pre).map WorkItem.index ++
          (i :: (runItems post).map WorkItem.index)) := by
    simp [pendingIdx, qIdx, rIdx, hw, runItems_append, runItems_cons,
      WorkerState.runningItem]
  have hps' : pendingIdx s' =
      s.queue.map WorkItem.index ++
        ((runItems pre).map WorkItem.index ++ (runItems post).map WorkItem.index) := by
    simp [hs', pendingIdx, qIdx, rIdx, runItems_append, runItems_cons,
      WorkerState.runningItem]
  have hperm : List.Perm (pendingIdx s) (i :: pendingIdx s') := by
    rw [hps, hps']
    exact perm_snoc_middle i _ _ _
  have hnodup' : (i :: pendingIdx s').Nodup := hperm.nodup ih.nodup
  have hinot : i ∉ pendingIdx s' := (List.nodup_cons.mp hnodup').1
  have hipend : i ∈ pendingIdx s := hperm.mem_iff.mpr (List.mem_cons_self i _)
  have hmem : ∀ j, j ∈ pendingIdx s ↔ (j = i ∨ j ∈ pendingIdx s') := by
    intro j
    rw [hperm.mem_iff, List.mem_cons]
  have hinotErr : i ∉ s.errorIndexes := by
    intro h
    exact (ih.errSound i h).1 hipend
  refine ⟨ih.tasksFrozen, ?_, ?_, ?_, hnodup'.of_cons, ?_, ?_, ?_,
    ?_, ?_, ?_, ih.flagEq, ?_, ?_, ?_, ih.soFlag⟩
  · have h := ih.wlen
    rw [hw] at h
    simpa using h
  · simpa [hs'] using ih.len
  · intro it' h
    apply ih.itemsOk
    revert h
    simp only [hs', hw, runItems_append, runItems_cons, WorkerState.runningItem,
      List.mem_append, List.mem_cons, Option.toList]
    tauto
  · intro j hj
    have hji : j ≠ i := fun h => hinot (h ▸ hj)
    have : s.results[j]? = some none := ih.pendingNone j ((hmem j).mpr (Or.inr hj))
    simpa [hs', List.getElem?_set_ne (Ne.symm hji)] using this
  · intro j v' hv' hnp
    have hji : j ≠ i := by
      intro h
      subst h
      rw [htask] at hv'
      cases hv'
    have hnp2 : j ∉ pendingIdx s := fun h => by
      rcases (hmem j).mp h with h | h
      · exact hji h
      · exact hnp h
    have := ih.writtenOk j v' hv' hnp2
    simpa [hs', List.getElem?_set_ne (Ne.symm hji)] using this
  · intro j e' he' hnp
    refine ⟨fun h2 => absurd h2 (by simp [hso]), fun _ => ?_⟩
    by_cases hji : j = i
    · subst hji
      have heq : e' = e := by
        rw [htask] at he'
        cases he'
        rfl
      subst heq
      simp [hs', List.getElem?_set_self hilen]
    · have hnp2 : j ∉ pendingIdx s := fun h => by
        rcases (hmem j).mp h with h | h
        · exact hji h
        · exact hnp h
      have := (ih.writtenErr j e' he' hnp2).2 hso
      simpa [hs', List.getElem?_set_ne (Ne.symm hji)] using this
  · show (s.errorIndexes ++ [i]).Nodup
    rw [List.nodup_append]
    refine ⟨ih.errNodup, by simp, ?_⟩
    intro j hj hj2
    simp only [List.mem_singleton] at hj2
    subst hj2
    exact hinotErr hj
  · intro j hj
    simp only [hs', List.mem_append, List.mem_singleton] at hj
    rcases hj with hj | hj
    · obtain ⟨h1, h2⟩ := ih.errSound j hj
      exact ⟨fun h => h1 ((hmem j).mpr (Or.inr h)), h2⟩
    · subst hj
      exact ⟨hinot, ⟨e, htask⟩⟩
  · intro _ j e' he' hnp
    show j ∈ s.errorIndexes ++ [i]
    rw [List.mem_append]
    by_cases hji : j = i
    · right
      simp [hji]
    · left
      have hnp2 : j ∉ pendingIdx s := fun h => by
        rcases (hmem j).mp h with h | h
        · exact hji h
        · exact hnp h
      exact ih.errComplete hso j e' he' hnp2
  · intro ce hce
    have hthr : thrownCEs (pre ++ (WorkerState.atLoop : WorkerState α) :: post) =
        thrownCEs (pre ++ WorkerState.running { task := TaskSpec.err e, index := i } :: post) := by
      simp [thrownCEs_append, thrownCEs_cons, WorkerState.thrownCE]
    simp only [hs', producedCEs, List.mem_append] at hce
    rcases hce with ((h | h) | h)
    · exact ih.ceShape ce (by
        simp only [producedCEs, List.mem_append]
        exact Or.inl (Or.inl h))
    · rw [hthr] at h
      exact ih.ceShape ce (by
        simp only [producedCEs, List.mem_append, hw]
        exact Or.inl (Or.inr h))
    · simp only [slotCEs] at h
      rcases mem_filterMap_set hilen h with h2 | h2
      · exact ih.ceShape ce (by
          simp only [producedCEs, List.mem_append, slotCEs]
          exact Or.inr h2)
      · simp only [slotCE] at h2
        cases h2
        exact ⟨e, htask, rfl⟩
  · intro hd
    have hd2 : WorkerState.done ∈ s.workers := by
      rw [hw]
      revert hd
      simp only [hs', List.mem_append, List.mem_cons]
      rintro (h | h | h)
      · exact Or.inl h
      · exact absurd h (by simp)
      · exact Or.inr (Or.inr h)
    exact ih.doneQueue hd2
  · intro ce hce
    apply ih.threwFlag ce
    rw [hw]
    revert hce
    simp only [hs', List.mem_append, List.mem_cons]
    rintro (h | h | h)
    · exact Or.inl h
    · exact absurd h (by simp)
    · exact Or.inr (Or.inr h)

end Preservation

theorem runInv_step {tasks : List (TaskSpec α)} {so : Bool} {c : Int} {s s2 : RunState α}
    (ih : RunInv tasks so c s) (hstep : Step so s s2) : RunInv tasks so c s2 := by
  cases hstep with
  | claim pre post it rest hw hq hgo => exact runInv_claim ih hw hq
  | exitLoop pre post hw hcond => exact runInv_exitLoop ih hw hcond
  | finishOk pre post v i hw => exact runInv_finishOk ih hw
  | finishErrStop pre post e i hso hw => exact runInv_finishErrStop ih hso hw
  | finishErrGo pre post e i hso hw => exact runInv_finishErrGo ih hso hw

/-- The invariant holds in every reachable state of a run. -/
theorem runInv_reachable {tasks : List (TaskSpec α)} {so : Bool} {c : Int} {s : RunState α}
    (h : Reachable so tasks c s) : RunInv tasks so c s := by
  unfold Reachable at h
  induction h with
  | refl => exact runInv_init tasks so c
  | tail hsteps hstep ih2 => exact runInv_step ih2 hstep

theorem jsInsert_perm (a : Nat) (l : List Nat) :
    List.Perm (jsInsert a l) (a :: l) := by
  induction l with
  | nil => simp [jsInsert]
  | cons b bs ih =>
      simp only [jsInsert]
      by_cases h : digitsLe (decDigits b) (decDigits a) = true
      · rw [if_pos h]
        exact List.Perm.trans (List.Perm.cons b ih) (List.Perm.swap a b bs)
      · rw [if_neg h]

theorem jsSortNums_perm (l : List Nat) :
    List.Perm (jsSortNums l) l := by
  induction l with
  | nil => exact List.Perm.refl []
  | cons a as ih =>
      simp only [jsSortNums]
      exact List.Perm.trans (jsInsert_perm a (jsSortNums as)) (List.Perm.cons a ih)

section TerminalAnalysis

variable {tasks : List (TaskSpec α)} {so : Bool} {c : Int} {s : RunState α}

theorem terminal_rIdx_nil (hterm : Terminal s) : rIdx s = [] := by
  have h : runItems s.workers = [] := by
    rw [runItems, List.filterMap_eq_nil_iff]
    intro w hw
    have := hterm w hw
    cases w with
    | atLoop => simp [WorkerState.isFinished] at this
    | running it => simp [WorkerState.isFinished] at this
    | done => simp [WorkerState.runningItem]
    | threw ce => simp [WorkerState.runningItem]
  simp [rIdx, h]

theorem terminal_pending_nil (hc : 1 ≤ c) (hinv : RunInv tasks so c s)
    (hterm : Terminal s) (hnoerr : s.errorOccurred = false) :
    pendingIdx s = [] := by
  have hr : rIdx s = [] := terminal_rIdx_nil hterm
  have hlen : 0 < s.workers.length := by
    rw [hinv.wlen]
    omega
  have hwmem : s.workers[0] ∈ s.workers := List.getElem_mem hlen
  set w := s.workers[0] with hwdef
  have hfin := hterm w hwmem
  have hqnil : s.queue = [] := by
    cases hww : w with
    | atLoop => rw [hww] at hfin; simp [WorkerState.isFinished] at hfin
    | running it => rw [hww] at hfin; simp [WorkerState.isFinished] at hfin
    | done =>
        rw [hww] at hwmem
        rcases hinv.doneQueue hwmem with h | h
        · exact h
        · rw [hnoerr] at h
          exact absurd h.2 (by simp)
    | threw ce =>
        rw [hww] at hwmem
        have := (hinv.threwFlag ce hwmem).2
        rw [hnoerr] at this
        cases this
  simp [pendingIdx, qIdx, hqnil, hr]

theorem terminal_noerr_of_firstError_none (hinv : RunInv tasks so c s)
    (hfe : s.firstError = none) : s.errorOccurred = false := by
  have := hinv.flagEq
  rw [hfe] at this
  simpa using this.symm

theorem terminal_rejects_of_fail (hc : 1 ≤ c) (hso : so = true)
    (hinv : RunInv tasks so c s) (hterm : Terminal s)
    (hfail : ∃ (i : Nat) (e : JsVal), tasks[i]? = some (TaskSpec.err e)) :
    ∃ ce, s.firstError = some ce := by
  cases hfe : s.firstError with
  | some ce => exact ⟨ce, rfl⟩
  | none =>
      exfalso
      have hnoerr : s.errorOccurred = false := terminal_noerr_of_firstError_none hinv hfe
      have hpend : pendingIdx s = [] := terminal_pending_nil hc hinv hterm hnoerr
      obtain ⟨i, e, he⟩ := hfail
      have := (hinv.writtenErr i e he (by simp [hpend])).1 hso
      rw [hnoerr] at this
      cases this

end TerminalAnalysis

/-- C1: for every task list of length n and every concurrency at least 1,
if every task succeeds and stopOnError is true, every completed run of
runConcurrent - under every scheduling of the workers, hence independent of
completion order - resolves to an array of length n whose element at index
i is the value produced by task i; in particular for the empty task list it
resolves to the empty array with no error. -/
theorem runConcurrent_allOk_ordered (vals : List α) (c : Int) (s : RunState α)
    (hc : 1 ≤ c)
    (hreach : Reachable true (vals.map TaskSpec.ok) c s)
    (hterm : Terminal s) :
    outcome true s = RunOutcome.resolvedArr (vals.map fun v => some (Slot.val v)) := by
  have hinv := runInv_reachable hreach
  have hfe : s.firstError = none := by
    cases hfe : s.firstError with
    | none => rfl
    | some ce =>
        exfalso
        obtain ⟨e, he, _⟩ := hinv.ceShape ce (by simp [producedCEs, hfe])
        rw [List.getElem?_map] at he
        cases hv : vals[ce.index]? with
        | none => rw [hv] at he; cases he
        | some v => rw [hv] at he; cases he
  have hnoerr := terminal_noerr_of_firstError_none hinv hfe
  have hpend := terminal_pending_nil hc hinv hterm hnoerr
  have hres : s.results = vals.map fun v => some (Slot.val v) := by
    apply List.ext_getElem?
    intro n
    by_cases hn : n < vals.length
    · have hv : (vals.map TaskSpec.ok)[n]? = some (TaskSpec.ok vals[n]) := by
        simp [List.getElem?_map, List.getElem?_eq_getElem hn]
      have h1 : s.results[n]? = some (some (Slot.val vals[n])) :=
        hinv.writtenOk n vals[n] hv (by simp [hpend])
      rw [h1]
      simp [List.getElem?_map, List.getElem?_eq_getElem hn]
    · have hlen : s.results.length = vals.length := by
        rw [hinv.len]
        simp
      have h1 : s.results[n]? = none := by
        rw [List.getElem?_eq_none]
        omega
      rw [h1]
      symm
      rw [List.getElem?_eq_none]
      simp
      omega
  simp [outcome, hfe, hres]

/-- C2: for every task list containing at least one failing task, with
stopOnError true (and concurrency at least 1), every completed run rejects
with a ConcurrencyError carrying the normalized cause of some failing task
and that task's 0-based input index; no array of successful results is
returned (the outcome is a rejection, not a resolved array).  The witness
instantiates the spec scenario: tasks A, throws("X"), C with concurrency 2
reject with a ConcurrencyError of index 1 and cause "X". -/
theorem runConcurrent_failFast_rejects (tasks : List (TaskSpec α)) (c : Int) (s : RunState α)
    (hc : 1 ≤ c)
    (hfail : ∃ (i : Nat) (e : JsVal), tasks[i]? = some (TaskSpec.err e))
    (hreach : Reachable true tasks c s)
    (hterm : Terminal s) :
    ∃ ce, outcome true s = RunOutcome.rejected ce ∧
      ∃ e, tasks[ce.index]? = some (TaskSpec.err e) ∧ ce = mkCE e ce.index := by
  have hinv := runInv_reachable hreach
  obtain ⟨ce, hfe⟩ := terminal_rejects_of_fail hc rfl hinv hterm hfail
  refine ⟨ce, by simp [outcome, hfe], ?_⟩
  exact hinv.ceShape ce (by simp [producedCEs, hfe])

/-- C3: for every task list with stopOnError false (and concurrency at
least 1), every completed run returns normally with a record of data and
errorIndexes where data has the length of the task list, data at i is the
ConcurrencyError (carrying the normalized cause and index i) exactly when
task i failed and task i's success value otherwise, and errorIndexes
contains exactly the failing indices, without duplicates.  The witness
instantiates the spec scenario: tasks A, throws("X"), C with concurrency 2
give data = [A, ConcurrencyError(cause "X", index 1), C] and
errorIndexes = [1]. -/
theorem runConcurrent_collectAll (tasks : List (TaskSpec α)) (c : Int) (s : RunState α)
    (hc : 1 ≤ c)
    (hreach : Reachable false tasks c s)
    (hterm : Terminal s) :
    ∃ (data : List (Option (Slot α))) (eIdx : List Nat),
      outcome false s = RunOutcome.resolvedRec data eIdx ∧
      data.length = tasks.length ∧
      (∀ (i : Nat) (v : α), tasks[i]? = some (TaskSpec.ok v) →
        data[i]? = some (some (Slot.val v))) ∧
      (∀ (i : Nat) (e : JsVal), tasks[i]? = some (TaskSpec.err e) →
        data[i]? = some (some (Slot.err (mkCE e i)))) ∧
      eIdx.Nodup ∧
      (∀ i : Nat, i ∈ eIdx ↔ ∃ e, tasks[i]? = some (TaskSpec.err e)) := by
  have hinv := runInv_reachable hreach
  have hnoerr : s.errorOccurred = false := hinv.soFlag rfl
  have hpend := terminal_pending_nil hc hinv hterm hnoerr
  refine ⟨s.results, jsSortNums s.errorIndexes, by simp [outcome], hinv.len, ?_, ?_, ?_, ?_⟩
  · intro i v hv
    exact hinv.writtenOk i v hv (by simp [hpend])
  · intro i e he
    exact (hinv.writtenErr i e he (by simp [hpend])).2 rfl
  · exact (jsSortNums_perm s.errorIndexes).symm.nodup hinv.errNodup
  · intro i
    rw [(jsSortNums_perm s.errorIndexes).mem_iff]
    constructor
    · intro h
      exact (hinv.errSound i h).2
    · intro ⟨e, he⟩
      exact hinv.errComplete rfl i e he (by simp [hpend])

/-- Options record of `runConcurrent`, both fields optional. -/
structure RunConcurrentOptions where
  concurrency : Option Int := none
  stopOnError : Option Bool := none

/-- `const { concurrency = 5 } = options`. -/
def optConcurrency (o : RunConcurrentOptions) : Int :=
  o.concurrency.getD 5

/-- `const { stopOnError = true } = options`. -/
def optStopOnError (o : RunConcurrentOptions) : Bool :=
  o.stopOnError.getD true

/-- The states a `runConcurrent(tasks, options)` call can reach. -/
def runReachable (tasks : List (TaskSpec α)) (o : RunConcurrentOptions) (s : RunState α) : Prop :=
  Reachable (optStopOnError o) tasks (optConcurrency o) s

/-- The settled value of a `runConcurrent(tasks, options)` call at `s`. -/
def runOutcomeOf (o : RunConcurrentOptions) (s : RunState α) : RunOutcome α :=
  outcome (optStopOnError o) s

/-- C7: when the options record is omitted (all fields unset),
runConcurrent behaves as if concurrency = 5 and stopOnError = true: the
effective option values, the reachable states and the outcome function of a
call with empty options are those of a call with explicit
concurrency = 5 and stopOnError = true. -/
theorem runConcurrent_defaults (tasks : List (TaskSpec α)) (s : RunState α) :
    optConcurrency {} = 5 ∧ optStopOnError {} = true ∧
    (runReachable tasks {} s ↔
      runReachable tasks { concurrency := some 5, stopOnError := some true } s) ∧
    runOutcomeOf {} s =
      runOutcomeOf { concurrency := some 5, stopOnError := some true } s :=
  ⟨rfl, rfl, Iff.rfl, rfl⟩

/-- C8: work-item claiming is mutually exclusive: in every reachable
state of every run, the indices sitting in the queue together with the
indices claimed by mid-task workers are pairwise distinct - no two workers
ever execute the task at the same index and no item is claimed twice
(the queue pop-and-assign is one indivisible step).  Moreover no index is
skipped absent a fail-fast abort: in a completed run with concurrency at
least 1 whose error flag is unset, every slot has been written. -/
theorem runConcurrent_claim_discipline (tasks : List (TaskSpec α)) (so : Bool) (c : Int)
    (s : RunState α) (hreach : Reachable so tasks c s) :
    (pendingIdx s).Nodup ∧
    (1 ≤ c → Terminal s → s.errorOccurred = false →
      ∀ i : Nat, i < tasks.length → ∃ r : Slot α, s.results[i]? = some (some r)) := by
  have hinv := runInv_reachable hreach
  refine ⟨hinv.nodup, fun hc hterm hnoerr i hi => ?_⟩
  have hpend := terminal_pending_nil hc hinv hterm hnoerr
  cases ht : tasks[i]? with
  | none =>
      rw [List.getElem?_eq_none_iff] at ht
      omega
  | some t =>
      cases t with
      | ok v => exact ⟨Slot.val v, hinv.writtenOk i v ht (by simp [hpend])⟩
      | err e =>
          cases hso : so with
          | false =>
              exact ⟨Slot.err (mkCE e i), (hinv.writtenErr i e ht (by simp [hpend])).2 hso⟩
          | true =>
              have := (hinv.writtenErr i e ht (by simp [hpend])).1 hso
              rw [hnoerr] at this
              cases this

/-- C9: runConcurrent never mutates the caller's tasks array: in every
reachable state of every run (so in particular when the run returns or
rejects), the tasks array is exactly the list passed in - same length,
same elements, same order; the internal work queue is a freshly mapped
copy and shift only consumes the copy. -/
theorem runConcurrent_tasks_preserved (tasks : List (TaskSpec α)) (so : Bool) (c : Int)
    (s : RunState α) (hreach : Reachable so tasks c s) :
    s.tasksArr = tasks :=
  (runInv_reachable hreach).tasksFrozen

/-- C6: for every task that throws a value which is not an Error
instance (null, undefined or a plain string such as "boom"), every
ConcurrencyError the run produces for it - thrown in fail-fast mode or
stored in the result array in collect-all mode - has a non-empty message
derived from the thrown value via the normalizing Error constructor, and
its cause is that normalized Error object, never the raw thrown value:
the message never equals a raw thrown string. -/
theorem runConcurrent_nonError_normalized (tasks : List (TaskSpec α)) (so : Bool) (c : Int)
    (s : RunState α) (ce : ConcurrencyError) (e : JsVal)
    (hreach : Reachable so tasks c s)
    (hce : ce ∈ producedCEs s)
    (he : tasks[ce.index]? = some (TaskSpec.err e))
    (hraw : ∀ m, e ≠ JsVal.errObj m) :
    ConcurrencyError.message ce ≠ "" ∧
    ce.cause = { message := normalizeError e } ∧
    (∀ str : String, e = JsVal.str str → ConcurrencyError.message ce ≠ str) := by
  have hinv := runInv_reachable hreach
  obtain ⟨e2, he2, hshape⟩ := hinv.ceShape ce hce
  have hee : e2 = e := by
    rw [he] at he2
    cases he2
    rfl
  subst hee
  have hcause : ce.cause = { message := normalizeError e2 } := by rw [hshape]; rfl
  have hmsg : ConcurrencyError.message ce = jsErrorToString { message := normalizeError e2 } := by
    rw [ConcurrencyError.message, hcause]
  have hlen7 : ("Error: " : String).length = 7 := rfl
  have hne : jsErrorToString { message := normalizeError e2 } ≠ "" := by
    rw [jsErrorToString]
    by_cases hm : normalizeError e2 = ""
    · rw [if_pos hm]
      decide
    · rw [if_neg hm]
      intro hcontra
      have hl := congrArg String.length hcontra
      rw [String.length_append] at hl
      rw [hlen7] at hl
      simp at hl
  refine ⟨by rw [hmsg]; exact hne, hcause, ?_⟩
  intro str hstr hcontra
  subst hstr
  have hnorm : normalizeError (JsVal.str str) = str := rfl
  rw [hmsg, jsErrorToString] at hcontra
  by_cases hm : normalizeError (JsVal.str str) = ""
  · rw [if_pos hm] at hcontra
    rw [hnorm] at hm
    rw [hm] at hcontra
    exact absurd hcontra (by decide)
  · rw [if_neg hm] at hcontra
    have hl := congrArg String.length hcontra
    simp only [String.length_append, hlen7, hnorm] at hl
    simp [normalizeError] at hl

/-- C10: for every task that throws null or undefined, the normalized
failure cause is the fixed non-empty string "Unknown error": every
ConcurrencyError the run produces for such a task (fail-fast or
collect-all) has as cause an Error constructed with "Unknown error", and
its message derives from it as "Error: Unknown error". -/
theorem runConcurrent_nullish_unknown (tasks : List (TaskSpec α)) (so : Bool) (c : Int)
    (s : RunState α) (ce : ConcurrencyError)
    (hreach : Reachable so tasks c s)
    (hce : ce ∈ producedCEs s)
    (he : tasks[ce.index]? = some (TaskSpec.err JsVal.jsNull) ∨
          tasks[ce.index]? = some (TaskSpec.err JsVal.jsUndefined)) :
    ce.cause = { message := "Unknown error" } ∧
    ConcurrencyError.message ce = "Error: Unknown error" := by
  have hinv := runInv_reachable hreach
  obtain ⟨e2, he2, hshape⟩ := hinv.ceShape ce hce
  rcases he with he | he
  · have hee : e2 = JsVal.jsNull := by
      rw [he] at he2
      cases he2
      rfl
    subst hee
    refine ⟨by rw [hshape]; rfl, ?_⟩
    rw [ConcurrencyError.message, show ce.cause = { message := "Unknown error" } from by rw [hshape]; rfl]
    decide
  · have hee : e2 = JsVal.jsUndefined := by
      rw [he] at he2
      cases he2
      rfl
    subst hee
    refine ⟨by rw [hshape]; rfl, ?_⟩
    rw [ConcurrencyError.message, show ce.cause = { message := "Unknown error" } from by rw [hshape]; rfl]
    decide

/-- Values for a three-task all-success run. -/
def c1Vals : List String := ["A", "B", "C"]

/-- Three always-succeeding tasks. -/
def c1Tasks : List (TaskSpec String) := c1Vals.map TaskSpec.ok

/-- A completed all-success run with concurrency 2. -/
def c1Final : RunState String := exec true (init c1Tasks 2) 6

/-- The spec scenario: values "A" and "C" around a task throwing `Error("X")`. -/
def c2Tasks : List (TaskSpec String) :=
  [TaskSpec.ok "A", TaskSpec.err (JsVal.errObj "X"), TaskSpec.ok "C"]

/-- The scenario run in fail-fast mode, concurrency 2. -/
def c2Final : RunState String := exec true (init c2Tasks 2) 6

/-- The scenario run in collect-all mode, concurrency 2. -/
def c3Final : RunState String := exec false (init c2Tasks 2) 8

theorem runConcurrent_allOk_ordered_witness :
    outcome true c1Final =
      RunOutcome.resolvedArr (c1Vals.map fun v => some (Slot.val v)) :=
  runConcurrent_allOk_ordered c1Vals 2 c1Final (by decide)
    (reachable_exec true c1Tasks 2 6) (by decide)

theorem runConcurrent_failFast_rejects_witness :
    (∃ (i : Nat) (e : JsVal), c2Tasks[i]? = some (TaskSpec.err e)) ∧
    (∃ ce, outcome true c2Final = RunOutcome.rejected ce ∧
      ∃ e, c2Tasks[ce.index]? = some (TaskSpec.err e) ∧ ce = mkCE e ce.index) ∧
    outcome true c2Final = RunOutcome.rejected (mkCE (JsVal.errObj "X") 1) :=
  ⟨⟨1, JsVal.errObj "X", rfl⟩,
   runConcurrent_failFast_rejects c2Tasks 2 c2Final (by decide)
     ⟨1, JsVal.errObj "X", rfl⟩ (reachable_exec true c2Tasks 2 6) (by decide),
   by decide⟩

theorem runConcurrent_collectAll_witness :
    (∃ (data : List (Option (Slot String))) (eIdx : List Nat),
      outcome false c3Final = RunOutcome.resolvedRec data eIdx ∧
      data.length = c2Tasks.length ∧
      (∀ (i : Nat) (v : String), c2Tasks[i]? = some (TaskSpec.ok v) →
        data[i]? = some (some (Slot.val v))) ∧
      (∀ (i : Nat) (e : JsVal), c2Tasks[i]? = some (TaskSpec.err e) →
        data[i]? = some (some (Slot.err (mkCE e i)))) ∧
      eIdx.Nodup ∧
      (∀ i : Nat, i ∈ eIdx ↔ ∃ e, c2Tasks[i]? = some (TaskSpec.err e))) ∧
    outcome false c3Final = RunOutcome.resolvedRec
      [some (Slot.val "A"), some (Slot.err (mkCE (JsVal.errObj "X") 1)), some (Slot.val "C")]
      [1] :=
  ⟨runConcurrent_collectAll c2Tasks 2 c3Final (by decide)
     (reachable_exec false c2Tasks 2 8) (by decide),
   by decide⟩

theorem runConcurrent_claim_discipline_witness :
    (pendingIdx c3Final).Nodup ∧
    ((1 : Int) ≤ 2 → Terminal c3Final → c3Final.errorOccurred = false →
      ∀ i : Nat, i < c2Tasks.length →
        ∃ r : Slot String, c3Final.results[i]? = some (some r)) :=
  runConcurrent_claim_discipline c2Tasks false 2 c3Final
    (reachable_exec false c2Tasks 2 8)

theorem runConcurrent_tasks_preserved_witness :
    c3Final.tasksArr = c2Tasks :=
  runConcurrent_tasks_preserved c2Tasks false 2 c3Final
    (reachable_exec false c2Tasks 2 8)

/-- One task throwing the plain string `"boom"`. -/
def c6Tasks : List (TaskSpec String) := [TaskSpec.err (JsVal.str "boom")]

/-- Its completed collect-all run. -/
def c6Final : RunState String := exec false (init c6Tasks 1) 4

theorem runConcurrent_nonError_normalized_witness :
    mkCE (JsVal.str "boom") 0 ∈ producedCEs c6Final ∧
    (ConcurrencyError.message (mkCE (JsVal.str "boom") 0) ≠ "" ∧
     (mkCE (JsVal.str "boom") 0).cause = { message := normalizeError (JsVal.str "boom") } ∧
     (∀ str : String, JsVal.str "boom" = JsVal.str str →
       ConcurrencyError.message (mkCE (JsVal.str "boom") 0) ≠ str)) :=
  ⟨by decide,
   runConcurrent_nonError_normalized c6Tasks false 1 c6Final
     (mkCE (JsVal.str "boom") 0) (JsVal.str "boom")
     (reachable_exec false c6Tasks 1 4) (by decide) (by decide)
     (fun m h => JsVal.noConfusion h)⟩

/-- One task throwing `null`. -/
def c10Tasks : List (TaskSpec String) := [TaskSpec.err JsVal.jsNull]

/-- Its completed fail-fast run. -/
def c10Final : RunState String := exec true (init c10Tasks 1) 4

theorem runConcurrent_nullish_unknown_witness :
    mkCE JsVal.jsNull 0 ∈ producedCEs c10Final ∧
    ((mkCE JsVal.jsNull 0).cause = { message := "Unknown error" } ∧
     ConcurrencyError.message (mkCE JsVal.jsNull 0) = "Error: Unknown error") :=
  ⟨by decide,
   runConcurrent_nullish_unknown c10Tasks true 1 c10Final (mkCE JsVal.jsNull 0)
     (reachable_exec true c10Tasks 1 4) (by decide) (Or.inl (by decide))⟩

/-- Eleven tasks failing exactly at indices 2 and 10. -/
def c4Tasks : List (TaskSpec String) :=
  [TaskSpec.ok "v0", TaskSpec.ok "v1", TaskSpec.err (JsVal.errObj "E2"),
   TaskSpec.ok "v3", TaskSpec.ok "v4", TaskSpec.ok "v5", TaskSpec.ok "v6",
   TaskSpec.ok "v7", TaskSpec.ok "v8", TaskSpec.ok "v9",
   TaskSpec.err (JsVal.errObj "E10")]

/-- Its completed collect-all run with concurrency 1 (tasks complete in
input order, so the indices are pushed as 2 then 10 before sorting). -/
def c4Final : RunState String := exec false (init c4Tasks 1) 25

/-- C4: the claim that errorIndexes is strictly ascending in numeric
order fails on the code: errorIndexes.sort() uses the default JavaScript
comparator, which compares decimal string representations.  With eleven
tasks failing exactly at indices 2 and 10 (concurrency 1, collect-all),
the completed run returns errorIndexes = [10, 2] - because "10" < "2" as
strings - which is not numerically ascending. -/
theorem errorIndexes_sorted_as_strings :
    Reachable false c4Tasks 1 c4Final ∧ Terminal c4Final ∧
    (outcome false c4Final).errIdxList = some [10, 2] ∧
    ¬ List.Pairwise (fun a b => a < b) [10, 2] ∧
    jsSortNums [2, 10] = [10, 2] :=
  ⟨reachable_exec false c4Tasks 1 25, by decide, by decide, by decide, by decide⟩

/-- One task that would succeed if it ever ran. -/
def c5Tasks : List (TaskSpec String) := [TaskSpec.ok "A"]

/-- C5: the claim that a concurrency of 0 or negative is clamped to 1 or
fails is false on the code: Array.from with a non-positive length produces
no workers at all, so with one pending task the initial state is already
terminal (Promise.all of an empty list), no step is even possible, and the
run resolves to a length-1 array whose slot is still an uninitialized hole
- the task is never executed.  The same holds for concurrency -2. -/
theorem zero_concurrency_launches_no_workers :
    (init c5Tasks 0).workers = [] ∧
    Reachable true c5Tasks 0 (init c5Tasks 0) ∧
    Terminal (init c5Tasks 0) ∧
    outcome true (init c5Tasks 0) = RunOutcome.resolvedArr [none] ∧
    (∀ s2 : RunState String, ¬ Step true (init c5Tasks 0) s2) ∧
    (init c5Tasks (-2)).workers = [] ∧
    outcome true (init c5Tasks (-2)) = RunOutcome.resolvedArr [none] := by
  refine ⟨rfl, Relation.ReflTransGen.refl, by decide, by decide, ?_, rfl, by decide⟩
  intro s2 hstep
  cases hstep <;> simp_all [init]
